import Mathlib

/-!
# The people directory view model

A shallow embedding of `src/page/PeopleDirectory.js`: the record store held in
the `data` state (`handleSave`, `handleAdd`, `confirmDelete`), the search filter
(`filteredData`), the page window (`paginatedData`, `totalPages`), the header
click handler that sets the `sorting` state, and the page controls.

Modelling conventions.

* A JavaScript string is a Lean `String`: a well-formed string, read as its
  sequence of characters. On well-formed strings a run of code units of one
  string occurs in another exactly when the run of characters does.
* The method `toLowerCase` is built into the language and follows the Unicode
  case mapping. It is not re-implemented: it is a parameter (`CaseMapping`) of
  the search filter and of everything that uses it, known only by what it does
  on ASCII text, where it maps `A`-`Z` to `a`-`z` and leaves every other
  character alone. Every theorem about the filter holds for every such mapping.
* `currentPage` and the page count are JavaScript numbers that only ever hold
  integers; they are `Int` here, so that `totalPages - 1` can be `-1` as in the
  source.
* A row of the table is identified with the record it wraps (`row.original`).
* The sorted row model of the table library is not part of the source file. It
  is an argument (`sortRows`) of everything that reads the table rows.
* `filteredData` is a memo with dependencies `searchQuery`, `table` and `data`.
  The table instance is the same object on every render, so the memo is
  computed again when the query or the record store changes and keeps its value
  on every other render, a header click included. The view state carries the
  value of the memo.
-/

namespace PeopleDirectory

/-! ## Data model -/

/-- One directory entry, as built by the initialiser of the `data` state
(lines 16-26): five string fields and the array of team names. -/
structure Person where
  id : String
  name : String
  status : String
  role : String
  email : String
  team : List String
deriving DecidableEq, Repr

/-- A value stored in a field of a record: a string, or an array of strings. -/
inductive Value where
  | str (s : String)
  | arr (a : List String)
deriving DecidableEq, Repr

/-- The values of `Object.values(row.original)`, in the insertion order of the keys. -/
def objectValues (p : Person) : List Value :=
  [.str p.id, .str p.name, .str p.status, .str p.role, .str p.email, .arr p.team]

/-- The conversion `String(value)`: a string is itself, an array of strings is
its elements joined by commas. -/
def stringOf : Value → String
  | .str s => s
  | .arr a => ",".intercalate a

/-- Whether every character of a string is an ASCII character. -/
def isAscii (s : String) : Bool := s.data.all (fun c => decide (c.toNat < 128))

/-- The method `toLowerCase` of strings, as the language provides it: a function
on strings that, on a string of ASCII characters, maps the letters `A`-`Z` to
`a`-`z` and leaves the other characters alone. What it does to other strings is
left open. -/
structure CaseMapping where
  toLowerCase : String → String
  ascii : ∀ s : String, isAscii s = true → toLowerCase s = ⟨s.data.map Char.toLower⟩

/-- The case mapping that treats every string the way `toLowerCase` treats
ASCII text. It agrees with the method of the language on ASCII text, and is
applied below to ASCII text only. -/
def asciiLowerCase : CaseMapping :=
  { toLowerCase := fun s => ⟨s.data.map Char.toLower⟩, ascii := fun _ _ => rfl }

/-- The method `includes` of a string: `search` occurs in `s` as a run of
consecutive characters, tried at every start position from left to right. -/
def includes (s search : String) : Bool :=
  s.data.tails.any (fun u => search.data.isPrefixOf u)

/-- The method `slice(start, end)` of an array: a negative bound counts from the
end, both bounds are clamped to the length, and nothing is returned when the
end is not after the start. -/
def slice {α : Type} (xs : List α) (start stop : Int) : List α :=
  let len : Int := xs.length
  let k : Int := if start < 0 then max (len + start) 0 else min start len
  let final : Int := if stop < 0 then max (len + stop) 0 else min stop len
  (xs.drop k.toNat).take (final - k).toNat

/-! ## Record store (lines 114-125, 161-168) -/

/-- The state update of `handleSave`: every record whose id is that of
`updatedPerson` is replaced by `updatedPerson`. -/
def handleSave (prevData : List Person) (updatedPerson : Person) : List Person :=
  prevData.map (fun person => if person.id = updatedPerson.id then updatedPerson else person)

/-- The state update of `handleAdd`: the new record is appended as it is. -/
def handleAdd (prevData : List Person) (newPerson : Person) : List Person :=
  prevData ++ [newPerson]

/-- The state update of `confirmDelete`: the records whose id is not
`deletePersonId` are kept. `deletePersonId` is `none` for `null`. -/
def confirmDelete (prevData : List Person) (deletePersonId : Option String) : List Person :=
  prevData.filter (fun person => decide (some person.id ≠ deletePersonId))

/-! ## Search filter and page window (lines 136, 176-196) -/

/-- The page size. -/
def itemsPerPage : Nat := 10

/-- The memo `filteredData` (lines 176-182): the rows with some field value
whose lower-cased string form includes the lower-cased query. -/
def filteredData (cm : CaseMapping) (rows : List Person) (searchQuery : String) :
    List Person :=
  rows.filter (fun row =>
    (objectValues row).any (fun value =>
      includes (cm.toLowerCase (stringOf value)) (cm.toLowerCase searchQuery)))

/-- The memo `paginatedData` (lines 185-188). -/
def paginatedData {α : Type} (filtered : List α) (currentPage : Int) : List α :=
  slice filtered (currentPage * itemsPerPage) ((currentPage + 1) * itemsPerPage)

/-- The constant `totalPages` (line 196): `Math.ceil` of the quotient of the
length by the page size. -/
def totalPages {α : Type} (filtered : List α) : Int :=
  ⌈((filtered.length : ℚ) / (itemsPerPage : ℚ))⌉

/-! ## Sorting state (lines 128, 235-238) -/

/-- One entry of the `sorting` state. -/
structure ColumnSort where
  id : String
  desc : Bool
deriving DecidableEq, Repr

/-- The negation `!x` of a value that is a boolean or `undefined` (`none`). -/
def jsNot : Option Bool → Bool
  | none => true
  | some b => !b

/-- The `onClick` handler of a header cell (lines 235-238), as the new value of
the `sorting` state. -/
def headerOnClick (sorting : List ColumnSort) (headerId : String) : List ColumnSort :=
  let isDescending : Option Bool :=
    (sorting.find? (fun sort => sort.id == headerId)).map (fun sort => sort.desc)
  [{ id := headerId, desc := jsNot isDescending }]

/-- The ids of the header cells: the accessor keys of the columns and `actions`
(lines 28-112). -/
def columnIds : List String := ["name", "status", "role", "email", "team", "actions"]

/-! ## View state and events -/

/-- The rows of `table.getRowModel()`: the records in store order while the
sorting state is empty, and what the sorted row model of the table library
(`sortRows`) returns otherwise. -/
def getRowModel (sortRows : List ColumnSort → List Person → List Person)
    (data : List Person) (sorting : List ColumnSort) : List Person :=
  if sorting.isEmpty then data else sortRows sorting data

/-- The part of the component state read by the view model, with the value held
by the memo `filteredData` (`filtered`). -/
structure ViewState where
  data : List Person
  searchQuery : String
  sorting : List ColumnSort
  currentPage : Int
  deletePersonId : Option String
  filtered : List Person
deriving DecidableEq, Repr

/-- The state of the first render: `searchQuery` is empty, `sorting` is empty,
`currentPage` is 0, no record is targeted (lines 127-135), and the memo is
computed from these. -/
def initialState (cm : CaseMapping) (sortRows : List ColumnSort → List Person → List Person)
    (data : List Person) : ViewState :=
  { data := data, searchQuery := "", sorting := [], currentPage := 0, deletePersonId := none,
    filtered := filteredData cm (getRowModel sortRows data []) "" }

/-- The value of `totalPages` in a view state. -/
def ViewState.pages (s : ViewState) : Int :=
  totalPages s.filtered

/-- The value of `paginatedData` in a view state: the visible rows. -/
def ViewState.visible (s : ViewState) : List Person :=
  paginatedData s.filtered s.currentPage

/-- The user actions that change the search query, the sorting, the page index
or delete a record. -/
inductive Event where
  | pageButton (index : Nat)
  | previous
  | next
  | searchChange (value : String)
  | headerClick (headerId : String)
  | deleteClick (id : String)
  | deleteConfirm
deriving DecidableEq, Repr

/-- Whether the control of an event is rendered and not disabled: a page button
exists for each index below `totalPages` (line 282), Previous is disabled on
page 0 (line 274), Next is disabled when `currentPage >= totalPages - 1`
(line 295), a header cell exists for each column. The search input, the delete
buttons and the confirmation of the delete dialog are always available. -/
def enabled (s : ViewState) : Event → Bool
  | .pageButton index => decide ((index : Int) < s.pages)
  | .previous => decide (s.currentPage ≠ 0)
  | .next => decide (¬ (s.currentPage ≥ s.pages - 1))
  | .headerClick headerId => decide (headerId ∈ columnIds)
  | _ => true

/-- The state after the handler of an event has run and the component has
rendered again (lines 156-168, 209, 235-238, 273, 285, 294). Setting the query
to the value it already has changes nothing. A new query and a new record
store make the memo `filteredData` run again, on the rows of the table with the
current sorting; after a header click the memo keeps its value. -/
def handle (cm : CaseMapping) (sortRows : List ColumnSort → List Person → List Person)
    (s : ViewState) : Event → ViewState
  | .pageButton index => { s with currentPage := index }
  | .previous => { s with currentPage := max (s.currentPage - 1) 0 }
  | .next => { s with currentPage := min (s.currentPage + 1) (s.pages - 1) }
  | .searchChange value =>
      if value = s.searchQuery then s
      else { s with searchQuery := value,
                    filtered := filteredData cm (getRowModel sortRows s.data s.sorting) value }
  | .headerClick headerId => { s with sorting := headerOnClick s.sorting headerId }
  | .deleteClick id => { s with deletePersonId := some id }
  | .deleteConfirm =>
      { s with data := confirmDelete s.data s.deletePersonId, deletePersonId := none,
               filtered := filteredData cm
                 (getRowModel sortRows (confirmDelete s.data s.deletePersonId) s.sorting)
                 s.searchQuery }

/-- One step of the view: the handler runs when the control is enabled, and
nothing happens otherwise. -/
def step (cm : CaseMapping) (sortRows : List ColumnSort → List Person → List Person)
    (s : ViewState) (e : Event) : ViewState :=
  if enabled s e then handle cm sortRows s e else s

/-- The state after a sequence of events. -/
def run (cm : CaseMapping) (sortRows : List ColumnSort → List Person → List Person)
    (s : ViewState) (events : List Event) : ViewState :=
  events.foldl (step cm sortRows) s

/-- A view state is reachable when some sequence of events leads to it from the
initial state of some record store. -/
def Reachable (cm : CaseMapping) (sortRows : List ColumnSort → List Person → List Person)
    (s : ViewState) : Prop :=
  ∃ (data : List Person) (events : List Event),
    run cm sortRows (initialState cm sortRows data) events = s

/-! ## Sample records -/

/-- A record with the given id, name and role; it is active and belongs to one team. -/
def member (id name role : String) : Person :=
  { id := id, name := name, status := "Active", role := role,
    email := id ++ "@corp.io", team := ["Design"] }

/-- Eleven records with pairwise distinct ids. -/
def sampleData : List Person :=
  [ member "u01" "Ann" "Engineer", member "u02" "Bob" "Engineer",
    member "u03" "Cid" "Engineer", member "u04" "Dan" "Engineer",
    member "u05" "Eve" "Engineer", member "u06" "Fay" "Engineer",
    member "u07" "Gus" "Engineer", member "u08" "Hal" "Engineer",
    member "u09" "Ian" "Engineer", member "u10" "Jon" "Engineer",
    member "u11" "Zed" "Engineer" ]

/-- A sorted row model that leaves the rows in store order. -/
def storeOrder : List ColumnSort → List Person → List Person := fun _ data => data

/-- The view state with the sample records, the query "zed", no sorting, page
index 1 and the one record that matches the query in the memo. -/
def staleState : ViewState :=
  { data := sampleData, searchQuery := "zed", sorting := [], currentPage := 1,
    deletePersonId := none, filtered := [member "u11" "Zed" "Engineer"] }

/-! ## Helper lemmas -/

/-- The page count in integer arithmetic: the quotient of `length + 9` by 10. -/
theorem totalPages_eq_div {α : Type} (L : List α) :
    totalPages L = ((L.length + 9) / 10 : Nat) := by
  unfold totalPages itemsPerPage
  generalize hm : (L.length + 9) / 10 = m
  generalize L.length = n at hm
  rw [Int.ceil_eq_iff]
  have h1q : (n : ℚ) ≤ 10 * (m : ℚ) := by
    have : n ≤ 10 * m := by omega
    exact_mod_cast this
  have h2q : 10 * (m : ℚ) < (n : ℚ) + 10 := by
    have : 10 * m < n + 10 := by omega
    exact_mod_cast this
  constructor
  · rw [lt_div_iff₀ (by norm_num)]
    push_cast
    linarith
  · rw [div_le_iff₀ (by norm_num)]
    push_cast
    linarith

/-- The method `includes` decides the contiguous-substring relation on the
characters of the two strings. -/
theorem includes_iff_substring (s search : String) :
    includes s search = true ↔ search.data <:+: s.data := by
  unfold includes
  rw [List.any_eq_true, List.infix_iff_prefix_suffix]
  constructor
  · rintro ⟨u, hu, hp⟩
    exact ⟨u, List.isPrefixOf_iff_prefix.mp hp, (List.mem_tails _ _).mp hu⟩
  · rintro ⟨u, hp, hu⟩
    exact ⟨u, (List.mem_tails _ _).mpr hu, List.isPrefixOf_iff_prefix.mpr hp⟩

/-- The test applied by `filteredData` to one row, in terms of the six field strings. -/
theorem any_field_iff (cm : CaseMapping) (q : String) (r : Person) :
    (objectValues r).any (fun value =>
        includes (cm.toLowerCase (stringOf value)) (cm.toLowerCase q)) = true ↔
      ∃ f ∈ [r.id, r.name, r.status, r.role, r.email, ",".intercalate r.team],
        (cm.toLowerCase q).data <:+: (cm.toLowerCase f).data := by
  simp only [objectValues, stringOf, List.any_cons, List.any_nil, Bool.or_false,
    Bool.or_eq_true, includes_iff_substring, List.mem_cons, List.mem_singleton,
    List.not_mem_nil, or_false, exists_eq_or_imp, exists_eq_left]

/-- The lower-cased empty string is empty, for every case mapping. -/
theorem toLowerCase_empty (cm : CaseMapping) : cm.toLowerCase "" = "" := by
  rw [cm.ascii "" (by decide)]
  rfl

/-- Every string includes the empty string. -/
theorem includes_empty (s : String) : includes s "" = true := by
  rw [includes_iff_substring]
  exact List.nil_infix

/-- On ASCII text every case mapping lower-cases like `asciiLowerCase`. -/
theorem toLowerCase_ascii (cm : CaseMapping) (s : String) (h : isAscii s = true) :
    cm.toLowerCase s = asciiLowerCase.toLowerCase s := by
  rw [cm.ascii s h]
  rfl

/-- On ASCII values and an ASCII query the test of `filteredData` on the values
of a record does not depend on the case mapping. -/
theorem filter_values_ascii (cm : CaseMapping) (vs : List Value) (q : String)
    (hv : vs.all (fun value => isAscii (stringOf value)) = true) (hq : isAscii q = true) :
    vs.filter (fun value =>
        includes (cm.toLowerCase (stringOf value)) (cm.toLowerCase q)) =
      vs.filter (fun value =>
        includes (asciiLowerCase.toLowerCase (stringOf value)) (asciiLowerCase.toLowerCase q)) := by
  apply List.filter_congr
  intro value hmem
  rw [toLowerCase_ascii cm q hq, toLowerCase_ascii cm _ (List.all_eq_true.mp hv value hmem)]

/-- On ASCII records and an ASCII query `filteredData` does not depend on the
case mapping. -/
theorem filteredData_ascii (cm : CaseMapping) (rows : List Person) (q : String)
    (hr : rows.all (fun row =>
      (objectValues row).all (fun value => isAscii (stringOf value))) = true)
    (hq : isAscii q = true) :
    filteredData cm rows q = filteredData asciiLowerCase rows q := by
  unfold filteredData
  apply List.filter_congr
  intro row hmem
  have hrow := List.all_eq_true.mp hr row hmem
  rw [List.any_eq, List.any_eq]
  apply decide_eq_decide.mpr
  constructor
  · rintro ⟨value, hval, hinc⟩
    refine ⟨value, hval, ?_⟩
    rw [← toLowerCase_ascii cm q hq, ← toLowerCase_ascii cm _ (List.all_eq_true.mp hrow value hval)]
    exact hinc
  · rintro ⟨value, hval, hinc⟩
    refine ⟨value, hval, ?_⟩
    rw [toLowerCase_ascii cm q hq, toLowerCase_ascii cm _ (List.all_eq_true.mp hrow value hval)]
    exact hinc

/-! ## Search filter -/

/-- C1. For every case mapping that `toLowerCase` may be, `filteredData R q` is
a sub-sequence of `R` in the same relative order; it is `R` filtered by a test
that holds exactly for the records with a field (id, name, status, role, email,
or the team names joined by commas) whose lower-cased string contains the
lower-cased query as a substring, so the records kept have such a field and the
records of `R` left out have none. The query "active" keeps a record whose only
field containing it, case-insensitively, is the status "Active"; and when the
case mapping lower-cases "Émile" to "émile", the query "é" keeps a record named
"Émile". -/
theorem filteredData_spec (cm : CaseMapping) (R : List Person) (q : String) :
    (filteredData cm R q).Sublist R ∧
    (∃ keep : Person → Bool,
      (∀ r, keep r = true ↔
        ∃ f ∈ [r.id, r.name, r.status, r.role, r.email, ",".intercalate r.team],
          (cm.toLowerCase q).data <:+: (cm.toLowerCase f).data) ∧
      filteredData cm R q = R.filter keep) ∧
    (∀ r, r ∈ filteredData cm R q ↔ r ∈ R ∧
      ∃ f ∈ [r.id, r.name, r.status, r.role, r.email, ",".intercalate r.team],
        (cm.toLowerCase q).data <:+: (cm.toLowerCase f).data) ∧
    (∀ r ∈ R, r ∉ filteredData cm R q →
      ¬ ∃ f ∈ [r.id, r.name, r.status, r.role, r.email, ",".intercalate r.team],
        (cm.toLowerCase q).data <:+: (cm.toLowerCase f).data) ∧
    ((objectValues (member "u01" "Ann" "Engineer")).filter (fun value =>
        includes (cm.toLowerCase (stringOf value)) (cm.toLowerCase "active")) =
          [.str "Active"] ∧
      filteredData cm [member "u01" "Ann" "Engineer"] "active" =
        [member "u01" "Ann" "Engineer"]) ∧
    (cm.toLowerCase "Émile" = "émile" → cm.toLowerCase "é" = "é" →
      filteredData cm [member "u01" "Émile" "Engineer"] "é" =
        [member "u01" "Émile" "Engineer"]) := by
  have hmem : ∀ r, r ∈ filteredData cm R q ↔ r ∈ R ∧
      ∃ f ∈ [r.id, r.name, r.status, r.role, r.email, ",".intercalate r.team],
        (cm.toLowerCase q).data <:+: (cm.toLowerCase f).data := by
    intro r
    unfold filteredData
    rw [List.mem_filter, any_field_iff]
  refine ⟨List.filter_sublist _, ⟨_, fun r => any_field_iff cm q r, rfl⟩, hmem, ?_,
    ⟨?_, ?_⟩, ?_⟩
  · intro r hr hout hf
    exact hout ((hmem r).mpr ⟨hr, hf⟩)
  · rw [filter_values_ascii cm _ "active" (by decide) (by decide)]
    decide
  · rw [filteredData_ascii cm _ "active" (by decide) (by decide)]
    decide
  · intro hname hq
    unfold filteredData
    rw [List.filter_eq_self]
    intro r hr
    rw [List.mem_singleton] at hr
    rw [hr, any_field_iff]
    refine ⟨"Émile", by simp [member], ?_⟩
    rw [hname, hq]
    decide

/-- C1, at the ASCII case mapping: of two records the query "ZED" keeps the one
named Zed. -/
theorem filteredData_spec_witness :
    filteredData asciiLowerCase
        [member "u01" "Ann" "Engineer", member "u11" "Zed" "Engineer"] "ZED" =
      [member "u11" "Zed" "Engineer"] ∧
    (filteredData asciiLowerCase
        [member "u01" "Ann" "Engineer", member "u11" "Zed" "Engineer"] "ZED").Sublist
      [member "u01" "Ann" "Engineer", member "u11" "Zed" "Engineer"] :=
  ⟨by decide,
    (filteredData_spec asciiLowerCase
      [member "u01" "Ann" "Engineer", member "u11" "Zed" "Engineer"] "ZED").1⟩

/-- C8, counterexample. Whatever `toLowerCase` does outside ASCII, the query made
of one space keeps no record of a store whose only record has no space in any
field. -/
theorem filteredData_space_drops :
    " ".data.all Char.isWhitespace = true ∧
    (∀ cm : CaseMapping, filteredData cm [member "u01" "Ann" "Engineer"] " " = []) ∧
    (∀ cm : CaseMapping, filteredData cm [member "u01" "Ann" "Engineer"] " " ≠
      [member "u01" "Ann" "Engineer"]) := by
  have h : ∀ cm : CaseMapping, filteredData cm [member "u01" "Ann" "Engineer"] " " = [] := by
    intro cm
    rw [filteredData_ascii cm _ " " (by decide) (by decide)]
    decide
  refine ⟨by decide, h, ?_⟩
  intro cm
  rw [h cm]
  decide

/-- C8, amended. On the empty query `filteredData` returns the rows unchanged:
the same records in the same order. -/
theorem filteredData_empty_query (cm : CaseMapping) (R : List Person) :
    filteredData cm R "" = R := by
  unfold filteredData
  rw [List.filter_eq_self]
  intro r _
  simp [objectValues, toLowerCase_empty, includes_empty]

/-! ## Record store -/

/-- The ids of the store, in order, are not changed by `handleSave`. -/
theorem handleSave_ids (S : List Person) (u : Person) :
    (handleSave S u).map (fun r => r.id) = S.map (fun r => r.id) := by
  unfold handleSave
  rw [List.map_map]
  apply List.map_congr_left
  intro r _
  by_cases h : r.id = u.id <;> simp [h]

/-- C3. After `handleSave` the store has the same length and, at every
position, holds the updated record where the old record had its id and the old
record elsewhere; when no record has that id the store is unchanged. -/
theorem handleSave_spec (S : List Person) (u : Person) :
    (handleSave S u).length = S.length ∧
    (∀ i : Nat, (handleSave S u)[i]? =
      (S[i]?).map (fun old => if old.id = u.id then u else old)) ∧
    ((∀ r ∈ S, r.id ≠ u.id) → handleSave S u = S) := by
  refine ⟨by simp [handleSave], fun i => by simp [handleSave], fun h => ?_⟩
  unfold handleSave
  conv_rhs => rw [← List.map_id S]
  apply List.map_congr_left
  intro r hr
  simp [h r hr]

/-- C3, at a concrete store: saving a changed record replaces it in place, and
saving a record with an unknown id changes nothing. -/
theorem handleSave_spec_witness :
    handleSave [member "u01" "Ann" "Engineer", member "u02" "Bob" "Engineer"]
        (member "u02" "Rob" "Designer") =
      [member "u01" "Ann" "Engineer", member "u02" "Rob" "Designer"] ∧
    handleSave [member "u01" "Ann" "Engineer", member "u02" "Bob" "Engineer"]
        (member "u03" "Cid" "Engineer") =
      [member "u01" "Ann" "Engineer", member "u02" "Bob" "Engineer"] :=
  ⟨by decide,
    (handleSave_spec [member "u01" "Ann" "Engineer", member "u02" "Bob" "Engineer"]
      (member "u03" "Cid" "Engineer")).2.2 (by decide)⟩

/-- C4. After `confirmDelete` with target id `i` no record has id `i`; every
record with another id is still there, as often as before and in the original
relative order (the result is a sub-sequence of the store that contains every
sub-sequence free of `i`); a second removal of `i` finds no record with that id
and leaves the store unchanged. -/
theorem confirmDelete_spec (S : List Person) (i : String) :
    (∀ r ∈ confirmDelete S (some i), r.id ≠ i) ∧
    (∀ r ∈ S, r.id ≠ i → r ∈ confirmDelete S (some i)) ∧
    (∀ r, r.id ≠ i → (confirmDelete S (some i)).count r = S.count r) ∧
    (confirmDelete S (some i)).Sublist S ∧
    (∀ T : List Person, T.Sublist S → (∀ r ∈ T, r.id ≠ i) →
      T.Sublist (confirmDelete S (some i))) ∧
    (¬ ∃ r ∈ confirmDelete S (some i), r.id = i) ∧
    confirmDelete (confirmDelete S (some i)) (some i) = confirmDelete S (some i) := by
  have hout : ∀ r ∈ confirmDelete S (some i), r.id ≠ i := by
    intro r hr
    simpa [confirmDelete] using (List.mem_filter.mp hr).2
  refine ⟨hout, ?_, ?_, List.filter_sublist _, ?_, ?_, ?_⟩
  · intro r hr hne
    exact List.mem_filter.mpr ⟨hr, by simpa using hne⟩
  · intro r hne
    unfold confirmDelete
    rw [List.count_filter]
    simpa using hne
  · intro T hT hfree
    have hfil : T.filter (fun person => decide (some person.id ≠ some i)) = T := by
      rw [List.filter_eq_self]
      intro r hr
      simpa using hfree r hr
    rw [← hfil]
    exact hT.filter _
  · rintro ⟨r, hr, hid⟩
    exact hout r hr hid
  · unfold confirmDelete
    rw [List.filter_filter]
    congr 1
    funext r
    simp

/-- C4, at a concrete store: the record with id u02 is removed, the others stay
in order, and a second removal changes nothing. -/
theorem confirmDelete_spec_witness :
    confirmDelete [member "u01" "Ann" "Engineer", member "u02" "Bob" "Engineer",
        member "u03" "Cid" "Engineer"] (some "u02") =
      [member "u01" "Ann" "Engineer", member "u03" "Cid" "Engineer"] ∧
    confirmDelete (confirmDelete [member "u01" "Ann" "Engineer", member "u02" "Bob" "Engineer",
        member "u03" "Cid" "Engineer"] (some "u02")) (some "u02") =
      confirmDelete [member "u01" "Ann" "Engineer", member "u02" "Bob" "Engineer",
        member "u03" "Cid" "Engineer"] (some "u02") :=
  ⟨by decide,
    (confirmDelete_spec [member "u01" "Ann" "Engineer", member "u02" "Bob" "Engineer",
        member "u03" "Cid" "Engineer"] "u02").2.2.2.2.2.2⟩

/-- C5, counterexample. The ids of a one-record store are pairwise distinct, and
after `handleAdd` of a record carrying the same id they are not: the record is
stored with the id it came with, which is the id of a record already there. -/
theorem handleAdd_duplicate_id :
    ([member "u01" "Ann" "Engineer"].map (fun r => r.id)).Nodup ∧
    handleAdd [member "u01" "Ann" "Engineer"] (member "u01" "Bob" "Designer") =
      [member "u01" "Ann" "Engineer", member "u01" "Bob" "Designer"] ∧
    ((handleAdd [member "u01" "Ann" "Engineer"] (member "u01" "Bob" "Designer")).map
        (fun r => r.id)) = ["u01", "u01"] ∧
    ¬ ((handleAdd [member "u01" "Ann" "Engineer"] (member "u01" "Bob" "Designer")).map
        (fun r => r.id)).Nodup := by
  decide

/-- C5, amended. When the ids of the store are pairwise distinct they are still
pairwise distinct after every `handleSave` and every `confirmDelete`;
`handleAdd` appends the submitted record unchanged, id included, so the store
holds exactly one more record, and the ids stay pairwise distinct exactly when
the id of the submitted record differs from every id already stored. -/
theorem ids_nodup_preserved (S : List Person) (u n : Person) (d : Option String)
    (h : (S.map (fun r => r.id)).Nodup) :
    ((handleSave S u).map (fun r => r.id)).Nodup ∧
    ((confirmDelete S d).map (fun r => r.id)).Nodup ∧
    handleAdd S n = S ++ [n] ∧
    (handleAdd S n).length = S.length + 1 ∧
    (((handleAdd S n).map (fun r => r.id)).Nodup ↔ ∀ r ∈ S, r.id ≠ n.id) := by
  refine ⟨?_, ?_, rfl, by simp [handleAdd], ?_⟩
  · rw [handleSave_ids]
    exact h
  · exact ((List.filter_sublist S).map _).nodup h
  · unfold handleAdd
    rw [List.map_append, List.nodup_append]
    simp only [List.map_cons, List.map_nil, List.nodup_singleton, h, true_and, and_true]
    constructor
    · intro hd r hr hid
      exact hd (List.mem_map_of_mem (fun r => r.id) hr) (by simp [hid])
    · intro hfresh x hx hn
      obtain ⟨r, hr, rfl⟩ := List.mem_map.mp hx
      exact hfresh r hr (by simpa using hn)

/-- C5, amended, at a concrete store with two distinct ids. -/
theorem ids_nodup_preserved_witness :
    (([member "u01" "Ann" "Engineer", member "u02" "Bob" "Engineer"].map
      (fun r => r.id)).Nodup) ∧
    ((handleSave [member "u01" "Ann" "Engineer", member "u02" "Bob" "Engineer"]
      (member "u02" "Rob" "Designer")).map (fun r => r.id)).Nodup :=
  ⟨by decide,
    (ids_nodup_preserved [member "u01" "Ann" "Engineer", member "u02" "Bob" "Engineer"]
      (member "u02" "Rob" "Designer") (member "u03" "Cid" "Engineer") (some "u01")
      (by decide)).1⟩

/-! ## Sorting state -/

/-- C6, counterexample. From the empty sorting state a click on the header of
`name` gives `desc: true`, not `desc: false`; the same holds when another
column is the active one. -/
theorem headerOnClick_inactive_desc :
    headerOnClick [] "name" = [{ id := "name", desc := true }] ∧
    headerOnClick [] "name" ≠ [{ id := "name", desc := false }] ∧
    headerOnClick [{ id := "role", desc := false }] "name" = [{ id := "name", desc := true }] := by
  decide

/-- C6, amended. A click on the header of a column that is not in the sorting
state makes that column the single active column with `desc: true`, that is
with direction descending. -/
theorem headerOnClick_inactive (sorting : List ColumnSort) (c : String)
    (h : ∀ e ∈ sorting, e.id ≠ c) :
    headerOnClick sorting c = [{ id := c, desc := true }] := by
  have hfind : sorting.find? (fun sort => sort.id == c) = none := by
    rw [List.find?_eq_none]
    intro e he
    simpa using h e he
  simp [headerOnClick, hfind, jsNot]

/-- C6, amended, at the sorting state that holds the column `role`. -/
theorem headerOnClick_inactive_witness :
    (∀ e ∈ [({ id := "role", desc := true } : ColumnSort)], e.id ≠ "email") ∧
    headerOnClick [{ id := "role", desc := true }] "email" =
      [{ id := "email", desc := true }] :=
  ⟨by decide, headerOnClick_inactive [{ id := "role", desc := true }] "email" (by decide)⟩

/-- C7. A click on the header of the only active column keeps it the only
active column and flips its direction; a second click restores the sorting
state. With `name` ascending, a click on `name` makes it descending. -/
theorem headerOnClick_active (c : String) (d : Bool) :
    headerOnClick [{ id := c, desc := d }] c = [{ id := c, desc := !d }] ∧
    headerOnClick (headerOnClick [{ id := c, desc := d }] c) c = [{ id := c, desc := d }] ∧
    headerOnClick [{ id := "name", desc := false }] "name" = [{ id := "name", desc := true }] := by
  have h1 : ∀ b : Bool, headerOnClick [{ id := c, desc := b }] c = [{ id := c, desc := !b }] := by
    intro b
    simp [headerOnClick, jsNot]
  refine ⟨h1 d, ?_, by decide⟩
  rw [h1 d, h1 (!d), Bool.not_not]

/-! ## Page window -/

/-- The window of a page with a natural index: ten rows from row `10 * p` on. -/
theorem paginatedData_nat {α : Type} (L : List α) (p : Nat) :
    paginatedData L (p : Int) = (L.drop (p * 10)).take 10 := by
  unfold paginatedData slice itemsPerPage
  have h1 : ¬ ((p : Int) * ((10 : Nat) : Int) < 0) := by push_cast; omega
  have h2 : ¬ (((p : Int) + 1) * ((10 : Nat) : Int) < 0) := by push_cast; omega
  have hk : (min ((p : Int) * ((10 : Nat) : Int)) (L.length : Int)).toNat =
      min (p * 10) L.length := by
    push_cast; omega
  have hc : (min (((p : Int) + 1) * ((10 : Nat) : Int)) (L.length : Int) -
      min ((p : Int) * ((10 : Nat) : Int)) (L.length : Int)).toNat =
      min ((p + 1) * 10) L.length - min (p * 10) L.length := by
    push_cast; omega
  simp only [h1, h2, if_false, hk, hc]
  by_cases hlen : p * 10 ≤ L.length
  · rw [Nat.min_eq_left hlen, List.take_eq_take, List.length_drop]
    omega
  · rw [List.drop_of_length_le (by omega), List.drop_of_length_le (by omega)]
    simp

/-- Consecutive windows of ten rows, enough of them to reach the end of the
list, concatenate to the list. -/
theorem windows_flatten {α : Type} (n : Nat) (L : List α) (h : L.length ≤ n * 10) :
    ((List.range n).map (fun p => (L.drop (p * 10)).take 10)).flatten = L := by
  induction n generalizing L with
  | zero =>
    have : L = [] := List.length_eq_zero.mp (by omega)
    simp [this]
  | succ n ih =>
    rw [List.range_succ_eq_map, List.map_cons, List.map_map, List.flatten_cons]
    have hrest : (List.range n).map ((fun p => (L.drop (p * 10)).take 10) ∘ Nat.succ) =
        (List.range n).map (fun p => ((L.drop 10).drop (p * 10)).take 10) := by
      apply List.map_congr_left
      intro p _
      simp only [Function.comp, List.drop_drop]
      congr 2
      omega
    rw [hrest, ih (L.drop 10) (by rw [List.length_drop]; omega)]
    simp

/-- The page count as a natural number. -/
theorem totalPages_toNat {α : Type} (L : List α) :
    (totalPages L).toNat = (L.length + 9) / 10 := by
  rw [totalPages_eq_div]
  rfl

/-- C2. The windows of the pages `0 .. totalPages - 1` concatenate to the list,
so their lengths add up to its length; row `k` of page `p` is row `10 * p + k`
of the list and a page has at most ten rows, so every row is on exactly one
page, in order. A list of 12 rows has 2 pages, of 10 and 2 rows. -/
theorem pages_cover {α : Type} (L : List α) :
    ((List.range (totalPages L).toNat).map (fun p : Nat => paginatedData L p)).flatten = L ∧
    ((List.range (totalPages L).toNat).map (fun p : Nat => (paginatedData L p).length)).sum =
      L.length ∧
    (∀ p k : Nat, k < 10 → (paginatedData L p)[k]? = L[p * 10 + k]?) ∧
    (∀ p : Nat, (paginatedData L p).length ≤ 10) ∧
    (∀ i : Nat, i < L.length → ((i / 10 : Nat) : Int) < totalPages L ∧
      (paginatedData L ((i / 10 : Nat) : Int))[i % 10]? = L[i]?) ∧
    (L.length = 12 → totalPages L = 2 ∧ (paginatedData L 0).length = 10 ∧
      (paginatedData L 1).length = 2) := by
  have hflat : ((List.range (totalPages L).toNat).map
      (fun p : Nat => paginatedData L p)).flatten = L := by
    simp only [paginatedData_nat]
    apply windows_flatten
    rw [totalPages_toNat]
    omega
  have hget : ∀ p k : Nat, k < 10 → (paginatedData L p)[k]? = L[p * 10 + k]? := by
    intro p k hk
    rw [paginatedData_nat, List.getElem?_take, List.getElem?_drop]
    simp [hk]
  refine ⟨hflat, ?_, hget, ?_, ?_, ?_⟩
  · have hlen := congrArg List.length hflat
    rw [List.length_flatten, List.map_map] at hlen
    exact hlen
  · intro p
    rw [paginatedData_nat, List.length_take]
    omega
  · intro i hi
    constructor
    · rw [totalPages_eq_div]
      have : i / 10 < (L.length + 9) / 10 := by omega
      exact_mod_cast this
    · rw [hget (i / 10) (i % 10) (Nat.mod_lt _ (by norm_num))]
      congr 1
      omega
  · intro h12
    refine ⟨?_, ?_, ?_⟩
    · rw [totalPages_eq_div, h12]
      rfl
    · have := paginatedData_nat L 0
      simp only [Nat.cast_zero] at this
      rw [this]
      simp [h12]
    · have := paginatedData_nat L 1
      simp only [Nat.cast_one] at this
      rw [this]
      simp [h12]

/-- C2, at the twelve-row list `0, 1, .., 11`. -/
theorem pages_cover_witness :
    (List.range 12).length = 12 ∧
    totalPages (List.range 12) = 2 ∧ (paginatedData (List.range 12) 0).length = 10 ∧
      (paginatedData (List.range 12) 1).length = 2 :=
  ⟨by decide, (pages_cover (List.range 12)).2.2.2.2.2 (by decide)⟩

/-- C9, counterexample. For the empty list `totalPages` is 0, which is less than 1. -/
theorem totalPages_nil_zero :
    totalPages ([] : List Person) = 0 ∧ ¬ (1 ≤ totalPages ([] : List Person)) := by
  have h : totalPages ([] : List Person) = 0 := by
    rw [totalPages_eq_div]
    rfl
  rw [h]
  exact ⟨rfl, by decide⟩

/-- C9, amended. `totalPages` is the ceiling of the length divided by 10: the
least integer `n` with `length ≤ 10 * n`. It is 0 when the list is empty and at
least 1 exactly when the list is not empty. -/
theorem totalPages_ceil {α : Type} (L : List α) :
    (L.length : Int) ≤ 10 * totalPages L ∧
    (∀ n : Int, (L.length : Int) ≤ 10 * n → totalPages L ≤ n) ∧
    totalPages L = ((L.length + 9) / 10 : Nat) ∧
    (totalPages L = 0 ↔ L = []) ∧
    (1 ≤ totalPages L ↔ L ≠ []) := by
  have hdiv := totalPages_eq_div L
  have hnil : L = [] ↔ L.length = 0 := List.length_eq_zero.symm
  refine ⟨?_, ?_, hdiv, ?_, ?_⟩
  · rw [hdiv]; push_cast; omega
  · intro n hn
    rw [hdiv]; push_cast; omega
  · rw [hdiv, hnil]; push_cast; omega
  · rw [hdiv, Ne, hnil]; push_cast; omega

/-! ## Page index -/

/-- A step never makes the page index negative. -/
theorem step_currentPage_nonneg (cm : CaseMapping)
    (sortRows : List ColumnSort → List Person → List Person)
    (s : ViewState) (e : Event) (h : 0 ≤ s.currentPage) :
    0 ≤ (step cm sortRows s e).currentPage := by
  unfold step
  split
  next hen =>
    cases e with
    | pageButton index => simp [handle]
    | previous => simp [handle]
    | next =>
      simp only [enabled, decide_eq_true_eq] at hen
      simp only [handle]
      omega
    | searchChange value =>
      simp only [handle]
      split
      · exact h
      · exact h
    | headerClick headerId => simpa [handle] using h
    | deleteClick id => simpa [handle] using h
    | deleteConfirm => simpa [handle] using h
  next => exact h

/-- A run never makes the page index negative. -/
theorem run_currentPage_nonneg (cm : CaseMapping)
    (sortRows : List ColumnSort → List Person → List Person)
    (events : List Event) (s : ViewState) (h : 0 ≤ s.currentPage) :
    0 ≤ (run cm sortRows s events).currentPage := by
  induction events generalizing s with
  | nil => exact h
  | cons e rest ih =>
    simp only [run, List.foldl_cons]
    exact ih (step cm sortRows s e) (step_currentPage_nonneg cm sortRows s e h)

/-- The window of a page with a natural index has a row exactly when the index
is below the page count. -/
theorem paginatedData_ne_nil_iff {α : Type} (L : List α) (p : Nat) :
    paginatedData L (p : Int) ≠ [] ↔ (p : Int) ≤ totalPages L - 1 := by
  rw [paginatedData_nat, totalPages_eq_div, ← List.length_pos, List.length_take,
    List.length_drop]
  constructor
  · intro h
    have : p + 1 ≤ (L.length + 9) / 10 := by omega
    have h2 : ((p + 1 : Nat) : Int) ≤ ((L.length + 9) / 10 : Nat) := by exact_mod_cast this
    push_cast at h2 ⊢
    omega
  · intro h
    have h2 : ((p + 1 : Nat) : Int) ≤ ((L.length + 9) / 10 : Nat) := by
      push_cast at h ⊢
      omega
    have : p + 1 ≤ (L.length + 9) / 10 := by exact_mod_cast h2
    omega

/-- Whatever `toLowerCase` does outside ASCII, the sample records, a click on the
second page button and the query "zed" lead to `staleState`. -/
theorem run_to_staleState (cm : CaseMapping) :
    run cm storeOrder (initialState cm storeOrder sampleData)
      [.pageButton 1, .searchChange "zed"] = staleState := by
  have hinit : initialState cm storeOrder sampleData =
      initialState asciiLowerCase storeOrder sampleData := by
    simp only [initialState]
    rw [filteredData_ascii cm _ "" (by decide) (by decide)]
  have hpages : (initialState asciiLowerCase storeOrder sampleData).pages = 2 := by
    simp only [ViewState.pages, totalPages_eq_div]
    decide
  have hzed : filteredData cm sampleData "zed" = [member "u11" "Zed" "Engineer"] := by
    rw [filteredData_ascii cm _ "zed" (by decide) (by decide)]
    decide
  have hrows : getRowModel storeOrder sampleData [] = sampleData := by decide
  rw [hinit]
  simp only [run, List.foldl_cons, List.foldl_nil, step, enabled, hpages]
  have hstep : handle cm storeOrder
      (handle cm storeOrder (initialState asciiLowerCase storeOrder sampleData) (.pageButton 1))
      (.searchChange "zed") = staleState := by
    simp only [handle, initialState, hrows]
    rw [if_neg (by decide), hzed]
    decide
  simpa using hstep

/-- C10, counterexample. With eleven records, a click on the second page button
followed by typing the query "zed" leads to a state whose filtered result has
one row and one page while the page index is still 1: the index is outside
`[0, totalPages - 1]` and the visible page is empty. This holds whatever
`toLowerCase` does outside ASCII. -/
theorem page_index_not_reclamped :
    (∀ cm : CaseMapping, run cm storeOrder (initialState cm storeOrder sampleData)
      [.pageButton 1, .searchChange "zed"] = staleState) ∧
    (∀ cm : CaseMapping, Reachable cm storeOrder staleState) ∧
    (∀ cm : CaseMapping, filteredData cm (getRowModel storeOrder staleState.data
      staleState.sorting) staleState.searchQuery = staleState.filtered) ∧
    staleState.filtered = [member "u11" "Zed" "Engineer"] ∧
    staleState.currentPage = 1 ∧
    staleState.pages = 1 ∧
    ¬ (staleState.currentPage ≤ staleState.pages - 1) ∧
    staleState.visible = [] := by
  have hpages : staleState.pages = 1 := by
    simp only [ViewState.pages, totalPages_eq_div]
    decide
  refine ⟨run_to_staleState, fun cm => ⟨sampleData, _, run_to_staleState cm⟩, ?_, rfl, rfl,
    hpages, ?_, ?_⟩
  · intro cm
    have hrows : getRowModel storeOrder staleState.data staleState.sorting = sampleData := by
      decide
    rw [hrows, filteredData_ascii cm _ _ (by decide) (by decide)]
    decide
  · rw [hpages]
    decide
  · decide

/-- C10, amended. In every reachable state the page index is not negative, it
is not negative after any further step, and the visible page has a row exactly
when the index is at most `totalPages - 1`. A click on a page button or on an
enabled Next puts the index in `[0, totalPages - 1]`, and Previous and Next keep
it there when it was there. A change of the search query, a header click, a
click on a delete button and the confirmation of a delete leave the index as it
is: it is not clamped again. -/
theorem page_index_steps (cm : CaseMapping)
    (sortRows : List ColumnSort → List Person → List Person)
    (s : ViewState) (h : Reachable cm sortRows s) :
    0 ≤ s.currentPage ∧
    (∀ e : Event, 0 ≤ (step cm sortRows s e).currentPage) ∧
    (s.visible ≠ [] ↔ s.currentPage ≤ s.pages - 1) ∧
    (∀ index : Nat, enabled s (.pageButton index) = true →
      0 ≤ (step cm sortRows s (.pageButton index)).currentPage ∧
      (step cm sortRows s (.pageButton index)).currentPage ≤
        (step cm sortRows s (.pageButton index)).pages - 1) ∧
    (enabled s .next = true →
      0 ≤ (step cm sortRows s .next).currentPage ∧
      (step cm sortRows s .next).currentPage ≤ (step cm sortRows s .next).pages - 1) ∧
    (s.currentPage ≤ s.pages - 1 →
      (step cm sortRows s .next).currentPage ≤ (step cm sortRows s .next).pages - 1 ∧
      (step cm sortRows s .previous).currentPage ≤
        (step cm sortRows s .previous).pages - 1) ∧
    (∀ value : String,
      (step cm sortRows s (.searchChange value)).currentPage = s.currentPage) ∧
    (∀ headerId : String, (step cm sortRows s (.headerClick headerId)).currentPage =
      s.currentPage) ∧
    (∀ id : String, (step cm sortRows s (.deleteClick id)).currentPage = s.currentPage) ∧
    (step cm sortRows s .deleteConfirm).currentPage = s.currentPage := by
  have hnn : 0 ≤ s.currentPage := by
    obtain ⟨data, events, rfl⟩ := h
    exact run_currentPage_nonneg cm sortRows events (initialState cm sortRows data) (le_refl _)
  refine ⟨hnn, fun e => step_currentPage_nonneg cm sortRows s e hnn,
    ?_, ?_, ?_, ?_, ?_, ?_, ?_, ?_⟩
  · obtain ⟨p, hp⟩ := Int.eq_ofNat_of_zero_le hnn
    simp only [ViewState.visible, ViewState.pages, hp]
    exact paginatedData_ne_nil_iff _ p
  · intro index hen
    have hlt : (index : Int) < s.pages := by simpa [enabled] using hen
    simp only [step, hen, if_true, handle, ViewState.pages] at hlt ⊢
    omega
  · intro hen
    have hlt : ¬ (s.currentPage ≥ s.pages - 1) := by simpa [enabled] using hen
    simp only [step, hen, if_true, handle, ViewState.pages] at hlt ⊢
    omega
  · intro hin
    constructor
    · unfold step
      split
      · simp only [handle, ViewState.pages] at hin ⊢
        omega
      · exact hin
    · unfold step
      split
      · simp only [handle, ViewState.pages] at hin ⊢
        omega
      · exact hin
  · intro value
    simp only [step, enabled, if_true, handle]
    split <;> rfl
  · intro headerId
    unfold step
    split <;> simp [handle]
  · intro id
    simp [step, enabled, handle]
  · simp [step, enabled, handle]

/-- C10, amended, at the state reached by a click on the second page button and
the query "zed": the index is 1, not negative, and a further change of the
query leaves it at 1. -/
theorem page_index_steps_witness :
    Reachable asciiLowerCase storeOrder staleState ∧
    (step asciiLowerCase storeOrder staleState (.searchChange "ze")).currentPage = 1 :=
  ⟨⟨sampleData, [.pageButton 1, .searchChange "zed"], run_to_staleState asciiLowerCase⟩,
    (page_index_steps asciiLowerCase storeOrder staleState
      ⟨sampleData, [.pageButton 1, .searchChange "zed"],
        run_to_staleState asciiLowerCase⟩).2.2.2.2.2.2.1 "ze"⟩

end PeopleDirectory
